import Mathlib

/-!
Shallow embedding of the seller-apis repository (src/seller.py, src/market.py).

The two scripts synchronize a vendor stock feed with two marketplaces.
We embed the pure transformation core: quantity/price normalization,
`create_stocks`, `create_prices`, `divide` (the batcher), and the
pagination loops of `get_offer_ids`.

Conventions of the embedding:
* Python lists become `List`, dict rows become structures.
* A feed row (`watch`) carries the three fields the code reads, already
  passed through `str(...)`: the code field, the quantity field and the
  price field.
* Python `int(...)` on a string can raise `ValueError`; fallible code
  therefore returns `Option`, with `none` for a raised exception.
* `offer_ids.remove(x)` on a Python list removes the first occurrence,
  which is `List.erase`.
* `create_stocks` mutates its `offer_ids` argument in place; the embedding
  makes the state passing explicit: it returns the produced stocks
  together with the final value of `offer_ids`.
-/

/-- A feed record as read by the code: `str(watch.get("Код"))` is `kod`,
`str(watch.get("Количество"))` is `kolichestvo`, `watch.get("Цена")` is
`tsena`. -/
structure Watch where
  kod : String
  kolichestvo : String
  tsena : String
deriving Repr, DecidableEq

/-- Digits of a numeral, underscores skipped, read in base 10
(the value computed by Python `int` on a valid numeral body). -/
def digitsVal (l : List Char) : Nat :=
  (l.filter (fun c => c ≠ '_')).foldl (fun a c => a * 10 + (c.toNat - 48)) 0

/-- Validity of the part of a Python integer literal after its first
character: digits, with single underscores allowed only between digits. -/
def pyNumRest : List Char → Bool
  | [] => true
  | c :: cs =>
    if c = '_' then
      match cs with
      | [] => false
      | d :: ds => d.isDigit && pyNumRest ds
    else c.isDigit && pyNumRest cs

/-- Validity of the unsigned body of a Python integer literal:
nonempty, starts with a digit, underscores only between digits. -/
def pyNum : List Char → Bool
  | [] => false
  | c :: cs => c.isDigit && pyNumRest cs

/-- Embedding of Python `int(s)` for a string argument: strip surrounding
whitespace, allow one optional sign, then a digit body with underscores
between digits.  `none` models the `ValueError` Python raises otherwise.
(Non-ASCII digit characters, accepted by CPython, are not modelled; no
feed value in scope uses them.) -/
def pythonInt (s : String) : Option Int :=
  let l := ((s.toList.dropWhile Char.isWhitespace).reverse.dropWhile
      Char.isWhitespace).reverse
  match l with
  | '+' :: rest => if pyNum rest then some (digitsVal rest : Int) else none
  | '-' :: rest => if pyNum rest then some (-(digitsVal rest : Int)) else none
  | rest => if pyNum rest then some (digitsVal rest : Int) else none

/-- The quantity normalization performed inline in both `create_stocks`
variants: `">10"` becomes 100, `"1"` becomes 0, anything else goes through
`int(...)`. -/
def normalizeCount (count : String) : Option Int :=
  if count = ">10" then some 100
  else if count = "1" then some 0
  else pythonInt count

/-- `seller.price_conversion` helper: the characters of the string before
its first `'.'` (Python `price.split(".")[0]`; the whole string when there
is no period). -/
def beforeDot : List Char → List Char
  | [] => []
  | c :: cs => if c = '.' then [] else c :: beforeDot cs

/-- `seller.price_conversion`: `re.sub("[^0-9]", "", price.split(".")[0])`.
Keeps the ASCII digits of the part before the first period.  A total
function: `split` always returns at least one part and `re.sub` never
fails. -/
def price_conversion (price : String) : String :=
  String.mk ((beforeDot price.toList).filter Char.isDigit)

/-- `seller.divide`: `lst[i : i + n]` for `i in range(0, len(lst), n)`.
For `n = 0` Python's `range` raises, so the embedding is only meaningful
for `n > 0`; we return `[]` in the degenerate case to stay total. -/
def divide (lst : List α) (n : Nat) : List (List α) :=
  if n = 0 then []
  else
    match lst with
    | [] => []
    | a :: l => (a :: l).take n :: divide ((a :: l).drop n) n
termination_by lst.length
decreasing_by
  simp [List.length_drop]
  omega

namespace seller

/-- One element of the `stocks` list built by `seller.create_stocks`. -/
structure Stock where
  offer_id : String
  stock : Int
deriving Repr, DecidableEq

/-- The first loop of `seller.create_stocks`: walk the feed; when a row's
code is in `offer_ids`, normalize the quantity, append a stock entry and
remove the code from `offer_ids`.  Returns the appended entries together
with the final `offer_ids`; `none` models the `ValueError` escaping from
`int(...)`. -/
def stocksLoop : List Watch → List String → Option (List Stock × List String)
  | [], ids => some ([], ids)
  | w :: ws, ids =>
    if w.kod ∈ ids then
      match normalizeCount w.kolichestvo with
      | none => none
      | some s =>
        match stocksLoop ws (ids.erase w.kod) with
        | none => none
        | some (rest, ids') => some (⟨w.kod, s⟩ :: rest, ids')
    else stocksLoop ws ids

/-- `seller.create_stocks`: the feed loop, then a zero-stock entry for
every id still left in `offer_ids`.  The second component of the result is
the final value of the (mutated in place) `offer_ids` argument. -/
def create_stocks (watch_remnants : List Watch) (offer_ids : List String) :
    Option (List Stock × List String) :=
  match stocksLoop watch_remnants offer_ids with
  | none => none
  | some (matched, rem) =>
    some (matched ++ rem.map (fun id => ⟨id, 0⟩), rem)

/-- One element of the `prices` list built by `seller.create_prices`
(the constant fields `auto_action_enabled`, `currency_code`, `old_price`
are fixed strings and carried as such). -/
structure Price where
  auto_action_enabled : String
  currency_code : String
  offer_id : String
  old_price : String
  price : String
deriving Repr, DecidableEq

/-- `seller.create_prices`: emit a price entry for every feed row whose
code is in `offer_ids`; `offer_ids` is read but never modified. -/
def create_prices (watch_remnants : List Watch) (offer_ids : List String) :
    List Price :=
  match watch_remnants with
  | [] => []
  | w :: ws =>
    if w.kod ∈ offer_ids then
      ⟨"UNKNOWN", "RUB", w.kod, "0", price_conversion w.tsena⟩
        :: create_prices ws offer_ids
    else create_prices ws offer_ids

/-- The body of `seller.main` after the data is fetched: `create_stocks`
(which mutates `offer_ids`) followed by `create_prices` on the mutated
list.  The surrounding `try` turns any exception into an abort of the
whole run, modelled by `none`. -/
def mainSync (watch_remnants : List Watch) (offer_ids : List String) :
    Option (List Stock × List Price) :=
  match create_stocks watch_remnants offer_ids with
  | none => none
  | some (stocks, ids') => some (stocks, create_prices watch_remnants ids')

/-- One product item of a page returned by the Ozon listing endpoint; the
loop reads `product.get("offer_id")`. -/
structure SProduct where
  offer_id : String
deriving Repr, DecidableEq

/-- One page returned by `seller.get_product_list`: the fields the loop in
`seller.get_offer_ids` reads (`items`, `total`, `last_id`).  `total` is a
JSON count, modelled as `Nat`. -/
structure SPage where
  items : List SProduct
  total : Nat
  last_id : String
deriving Repr, DecidableEq

/-- The `while True` loop of `seller.get_offer_ids`, the server modelled
as a function from the `last_id` cursor to the page it answers.  The loop
extends `product_list` with the page's items and breaks when the reported
`total` equals the accumulated length.  `fuel` bounds the number of
iterations of the unbounded Python loop; `none` means the loop is still
running when the fuel runs out. -/
def offerLoop (σ : String → SPage) : Nat → String → List SProduct →
    Option (List SProduct)
  | 0, _, _ => none
  | fuel + 1, last_id, acc =>
    let r := σ last_id
    let acc' := acc ++ r.items
    if r.total = acc'.length then some acc'
    else offerLoop σ fuel r.last_id acc'

/-- `seller.get_offer_ids`: run the pagination loop from the empty cursor,
then extract `offer_id` from every accumulated product. -/
def get_offer_ids (σ : String → SPage) (fuel : Nat) : Option (List String) :=
  (offerLoop σ fuel "" []).map (fun l => l.map SProduct.offer_id)

end seller

namespace market

/-- One element of the `stocks` list built by `market.create_stocks`.  The
single entry of its `items` list is inlined: `count`, the constant type
`"FIT"` and the timestamp string computed once per call. -/
structure Stock where
  sku : String
  warehouseId : String
  count : Int
  itemType : String
  updatedAt : String
deriving Repr, DecidableEq

/-- The feed loop of `market.create_stocks`: same control flow as the
seller variant, but the emitted entry carries the warehouse id and the
timestamp `date`. -/
def stocksLoop (warehouse_id date : String) :
    List Watch → List String → Option (List Stock × List String)
  | [], ids => some ([], ids)
  | w :: ws, ids =>
    if w.kod ∈ ids then
      match normalizeCount w.kolichestvo with
      | none => none
      | some s =>
        match stocksLoop warehouse_id date ws (ids.erase w.kod) with
        | none => none
        | some (rest, ids') =>
          some (⟨w.kod, warehouse_id, s, "FIT", date⟩ :: rest, ids')
    else stocksLoop warehouse_id date ws ids

/-- `market.create_stocks`: feed loop, then a zero-count entry for every
id still left in `offer_ids`.  The second component is the final value of
the (mutated in place) `offer_ids` argument. -/
def create_stocks (watch_remnants : List Watch) (offer_ids : List String)
    (warehouse_id date : String) : Option (List Stock × List String) :=
  match stocksLoop warehouse_id date watch_remnants offer_ids with
  | none => none
  | some (matched, rem) =>
    some (matched ++ rem.map (fun id => ⟨id, warehouse_id, 0, "FIT", date⟩),
      rem)

/-- One element of the `prices` list built by `market.create_prices`:
`id`, the integer `price.value` and the constant currency. -/
structure Price where
  id : String
  value : Int
  currencyId : String
deriving Repr, DecidableEq

/-- `market.create_prices`: emit an entry for every feed row whose code is
in `offer_ids`; the value is `int(price_conversion(...))`, whose
`ValueError` (for a price with no digits before the period) is modelled by
`none` and aborts the call. -/
def create_prices (watch_remnants : List Watch) (offer_ids : List String) :
    Option (List Price) :=
  match watch_remnants with
  | [] => some []
  | w :: ws =>
    if w.kod ∈ offer_ids then
      match pythonInt (price_conversion w.tsena) with
      | none => none
      | some v =>
        match create_prices ws offer_ids with
        | none => none
        | some rest => some (⟨w.kod, v, "RUR"⟩ :: rest)
    else create_prices ws offer_ids

/-- One offer-mapping entry of a page of the Yandex listing endpoint; the
code reads `product.get("offer").get("shopSku")`. -/
structure MEntry where
  shopSku : String
deriving Repr, DecidableEq

/-- One page returned by `market.get_product_list`: the entry list and the
continuation token `paging.nextPageToken`.  Python's `if not page` treats
the empty string (or a missing token) as falsy; the embedding uses `""`
for the falsy case. -/
structure MPage where
  offerMappingEntries : List MEntry
  nextPageToken : String
deriving Repr, DecidableEq

/-- The `while True` loop of `market.get_offer_ids`, the server modelled
as a function from the page token to the page it answers.  The loop
extends `product_list`, replaces the token and breaks when the new token
is falsy.  `fuel` bounds the iterations of the unbounded Python loop;
`none` means the loop is still running when the fuel runs out. -/
def offerLoop (σ : String → MPage) : Nat → String → List MEntry →
    Option (List MEntry)
  | 0, _, _ => none
  | fuel + 1, page, acc =>
    let r := σ page
    let acc' := acc ++ r.offerMappingEntries
    if r.nextPageToken = "" then some acc'
    else offerLoop σ fuel r.nextPageToken acc'

/-- `market.get_offer_ids`: run the pagination loop from the empty token,
then extract `shopSku` from every accumulated entry. -/
def get_offer_ids (σ : String → MPage) (fuel : Nat) : Option (List String) :=
  (offerLoop σ fuel "" []).map (fun l => l.map MEntry.shopSku)

/-- One iteration of the `market.get_offer_ids` loop as a step function on
the loop state (current token, accumulated entries): `Sum.inl` is the
state at the next iteration, `Sum.inr` the value returned after `break`.
The Python loop has no other exit and no error path. -/
def offerStep (σ : String → MPage) :
    String × List MEntry → (String × List MEntry) ⊕ List MEntry :=
  fun st =>
    let r := σ st.1
    let acc' := st.2 ++ r.offerMappingEntries
    if r.nextPageToken = "" then Sum.inr acc'
    else Sum.inl (r.nextPageToken, acc')

end market

/-! ## Lemmas about the feed loop of `create_stocks` -/

/-- The ids emitted by the feed loop together with the ids left over are a
permutation of the incoming `offer_ids`: each match moves one occurrence
from the working list into the output. -/
theorem stocksLoop_perm : ∀ (F : List Watch) (K : List String) m rem,
    seller.stocksLoop F K = some (m, rem) →
    (m.map seller.Stock.offer_id ++ rem).Perm K := by
  intro F
  induction F with
  | nil =>
    intro K m rem h
    simp only [seller.stocksLoop, Option.some_inj, Prod.mk.injEq] at h
    obtain ⟨h1, h2⟩ := h
    subst h1; subst h2
    simp
  | cons w ws ih =>
    intro K m rem h
    simp only [seller.stocksLoop] at h
    by_cases hmem : w.kod ∈ K
    · rw [if_pos hmem] at h
      cases hn : normalizeCount w.kolichestvo with
      | none => rw [hn] at h; exact absurd h (by simp)
      | some s =>
        rw [hn] at h
        cases hr : seller.stocksLoop ws (K.erase w.kod) with
        | none => rw [hr] at h; exact absurd h (by simp)
        | some p =>
          obtain ⟨rest, ids⟩ := p
          rw [hr] at h
          simp only [Option.some_inj, Prod.mk.injEq] at h
          obtain ⟨h1, h2⟩ := h
          subst h1; subst h2
          have hp := ih (K.erase w.kod) rest _ hr
          simp only [List.map_cons, List.cons_append]
          exact (hp.cons w.kod).trans (List.perm_cons_erase hmem).symm
    · rw [if_neg hmem] at h
      exact ih K m rem h

/-- Conversion from a seller stock entry to the market entry carrying the
same id and count. -/
def toMarketStock (warehouse_id date : String) (s : seller.Stock) :
    market.Stock :=
  ⟨s.offer_id, warehouse_id, s.stock, "FIT", date⟩

/-- The market feed loop is the seller feed loop with each emitted entry
wrapped in the market payload shape: the two loops share their control
flow exactly. -/
theorem market_stocksLoop_eq (w d : String) : ∀ (F : List Watch)
    (K : List String), market.stocksLoop w d F K =
    (seller.stocksLoop F K).map
      (fun p => (p.1.map (toMarketStock w d), p.2)) := by
  intro F
  induction F with
  | nil => intro K; simp [market.stocksLoop, seller.stocksLoop]
  | cons x ws ih =>
    intro K
    simp only [market.stocksLoop, seller.stocksLoop]
    by_cases hmem : x.kod ∈ K
    · rw [if_pos hmem, if_pos hmem]
      cases hn : normalizeCount x.kolichestvo with
      | none => simp
      | some s =>
        simp only
        rw [ih (K.erase x.kod)]
        cases hr : seller.stocksLoop ws (K.erase x.kod) with
        | none => simp
        | some p => simp [toMarketStock]
    · rw [if_neg hmem, if_neg hmem]
      exact ih K

/-- `market.create_stocks` is `seller.create_stocks` with every entry
converted to the market payload shape. -/
theorem market_create_stocks_eq (F : List Watch) (K : List String)
    (w d : String) : market.create_stocks F K w d =
    (seller.create_stocks F K).map
      (fun p => (p.1.map (toMarketStock w d), p.2)) := by
  unfold market.create_stocks seller.create_stocks
  rw [market_stocksLoop_eq]
  cases hr : seller.stocksLoop F K with
  | none => simp
  | some p =>
    obtain ⟨matched, rem⟩ := p
    simp [toMarketStock]

/-- The ids of the full `seller.create_stocks` output, together with a
permutation statement: output ids are the matched ids followed by the
leftover ids, a permutation of the incoming `offer_ids`. -/
theorem create_stocks_perm (F : List Watch) (K : List String)
    (st rem : List _) (h : seller.create_stocks F K = some (st, rem)) :
    (st.map seller.Stock.offer_id).Perm K := by
  unfold seller.create_stocks at h
  cases hr : seller.stocksLoop F K with
  | none => rw [hr] at h; exact absurd h (by simp)
  | some p =>
    obtain ⟨matched, rem'⟩ := p
    rw [hr] at h
    simp only [Option.some_inj, Prod.mk.injEq] at h
    obtain ⟨h1, h2⟩ := h
    subst h1; subst h2
    have hp := stocksLoop_perm F K matched rem' hr
    have hid : (seller.Stock.offer_id ∘ fun id => (⟨id, 0⟩ : seller.Stock)) =
        id := rfl
    have : ((matched ++ rem'.map fun id => (⟨id, 0⟩ : seller.Stock)).map
        seller.Stock.offer_id) = matched.map seller.Stock.offer_id ++ rem' := by
      simp [List.map_map, hid]
    rw [this]
    exact hp

/-- The market entries produced by converting seller entries carry the
same ids: `sku` after conversion is `offer_id` before. -/
theorem toMarketStock_sku_map (w d : String) (l : List seller.Stock) :
    (l.map (toMarketStock w d)).map market.Stock.sku =
    l.map seller.Stock.offer_id := by
  rw [List.map_map]
  rfl

/-! ## Lemmas about `create_prices` -/

/-- The seller price loop is a filter of the feed by known codes followed
by construction of the payload: entries are emitted exactly for the feed
rows whose code is in `offer_ids`, in feed order. -/
theorem create_prices_eq_filter_map : ∀ (F : List Watch) (K : List String),
    seller.create_prices F K = (F.filter fun w => decide (w.kod ∈ K)).map
      (fun w => ⟨"UNKNOWN", "RUB", w.kod, "0", price_conversion w.tsena⟩) := by
  intro F
  induction F with
  | nil => intro K; rfl
  | cons w ws ih =>
    intro K
    simp only [seller.create_prices, List.filter_cons]
    by_cases hmem : w.kod ∈ K
    · rw [if_pos hmem, if_pos (by exact decide_eq_true hmem)]
      rw [List.map_cons, ih K]
    · rw [if_neg hmem, if_neg (by simpa using hmem)]
      exact ih K

/-- Every price entry the market variant emits has its id among the known
ids and has a feed row with that code. -/
theorem market_create_prices_mem : ∀ (F : List Watch) (K : List String) ps,
    market.create_prices F K = some ps →
    ∀ p ∈ ps, p.id ∈ K ∧ ∃ w ∈ F, w.kod = p.id := by
  intro F
  induction F with
  | nil =>
    intro K ps h
    simp only [market.create_prices, Option.some_inj] at h
    subst h
    intro p hp
    exact absurd hp (by simp)
  | cons w ws ih =>
    intro K ps h
    simp only [market.create_prices] at h
    by_cases hmem : w.kod ∈ K
    · rw [if_pos hmem] at h
      cases hv : pythonInt (price_conversion w.tsena) with
      | none => rw [hv] at h; exact absurd h (by simp)
      | some v =>
        rw [hv] at h
        cases hr : market.create_prices ws K with
        | none => rw [hr] at h; exact absurd h (by simp)
        | some rest =>
          rw [hr] at h
          simp only [Option.some_inj] at h
          subst h
          intro p hp
          rcases List.mem_cons.mp hp with h1 | h1
          · subst h1
            exact ⟨hmem, w, List.mem_cons_self w ws, rfl⟩
          · rcases ih K rest hr p h1 with ⟨hk, w', hw', hkod⟩
            exact ⟨hk, w', List.mem_cons_of_mem w hw', hkod⟩
    · rw [if_neg hmem] at h
      intro p hp
      rcases ih K ps h p hp with ⟨hk, w', hw', hkod⟩
      exact ⟨hk, w', List.mem_cons_of_mem w hw', hkod⟩

/-- If no feed row's code is among the given ids, the seller price loop
emits nothing. -/
theorem create_prices_nil_of_disjoint : ∀ (F : List Watch)
    (K : List String), (∀ w ∈ F, w.kod ∉ K) →
    seller.create_prices F K = [] := by
  intro F
  induction F with
  | nil => intro K _; rfl
  | cons w ws ih =>
    intro K h
    simp only [seller.create_prices]
    rw [if_neg (h w (List.mem_cons_self w ws))]
    exact ih K (fun w' hw' => h w' (List.mem_cons_of_mem w hw'))

/-! ## Claim theorems: coverage of `create_stocks` -/

/-- C1: for every feed `F` and duplicate-free known-id list `K`, the list
returned by `create_stocks` (either marketplace variant, whenever its
quantity parsing succeeds) carries each id of `K` exactly once as its
`offer_id`/`sku`: no omissions, no additions, no duplicates, even with
repeated or unknown feed codes. -/
theorem create_stocks_ids_exactly_known (F : List Watch) (K : List String)
    (hK : K.Nodup) :
    (∀ st rem, seller.create_stocks F K = some (st, rem) →
      (st.map seller.Stock.offer_id).Nodup ∧
      ∀ k, k ∈ st.map seller.Stock.offer_id ↔ k ∈ K) ∧
    (∀ w d st rem, market.create_stocks F K w d = some (st, rem) →
      (st.map market.Stock.sku).Nodup ∧
      ∀ k, k ∈ st.map market.Stock.sku ↔ k ∈ K) := by
  constructor
  · intro st rem h
    have hp := create_stocks_perm F K st rem h
    exact ⟨hp.nodup_iff.mpr hK, fun k => hp.mem_iff⟩
  · intro w d st rem h
    rw [market_create_stocks_eq] at h
    rcases Option.map_eq_some'.mp h with ⟨⟨st', rem'⟩, hs, hconv⟩
    simp only [Prod.mk.injEq] at hconv
    obtain ⟨h1, h2⟩ := hconv
    subst h1; subst h2
    have hp := create_stocks_perm F K st' rem' hs
    rw [toMarketStock_sku_map]
    exact ⟨hp.nodup_iff.mpr hK, fun k => hp.mem_iff⟩

/-- Witness for C1 at a concrete feed (one known code, one unknown code)
and known-id list. -/
theorem create_stocks_ids_exactly_known_witness :
    ((([(⟨"A", 5⟩ : seller.Stock), ⟨"B", 0⟩]).map
      seller.Stock.offer_id).Nodup) ∧
    ("B" ∈ ([⟨"A", 5⟩, ⟨"B", 0⟩] : List seller.Stock).map
      seller.Stock.offer_id ↔ "B" ∈ (["A", "B"] : List String)) := by
  have h := (create_stocks_ids_exactly_known
    [⟨"A", "5", "p"⟩, ⟨"D", "7", "p"⟩] ["A", "B"] (by decide)).1
    [⟨"A", 5⟩, ⟨"B", 0⟩] ["B"] rfl
  exact ⟨h.1, h.2 "B"⟩

/-! ## Lemmas about the batcher `divide` -/

/-- Concatenating the chunks of `divide` restores the list (stated with
an explicit bound on the length to drive the induction). -/
theorem divide_flatten_aux (n : Nat) (h : n ≠ 0) : ∀ (len : Nat)
    (lst : List α), lst.length ≤ len → (divide lst n).flatten = lst := by
  intro len
  induction len with
  | zero =>
    intro lst hl
    match lst, hl with
    | [], _ => unfold divide; rw [if_neg h]; rfl
  | succ m ih =>
    intro lst hl
    unfold divide
    rw [if_neg h]
    match lst, hl with
    | [], _ => rfl
    | a :: l, hl =>
      simp only [List.flatten_cons]
      rw [ih ((a :: l).drop n) (by simp at hl ⊢; omega)]
      exact List.take_append_drop n (a :: l)

/-- Concatenating the chunks of `divide` restores the list. -/
theorem divide_flatten (n : Nat) (h : n ≠ 0) (lst : List α) :
    (divide lst n).flatten = lst :=
  divide_flatten_aux n h lst.length lst le_rfl

/-- Every chunk produced by `divide` has length at most `n`. -/
theorem divide_chunk_le_aux (n : Nat) : ∀ (len : Nat) (lst : List α),
    lst.length ≤ len → ∀ c ∈ divide lst n, c.length ≤ n := by
  intro len
  induction len with
  | zero =>
    intro lst hl
    match lst, hl with
    | [], _ =>
      intro c hc
      unfold divide at hc
      by_cases hn : n = 0
      · rw [if_pos hn] at hc; exact absurd hc (by simp)
      · rw [if_neg hn] at hc; exact absurd hc (by simp)
  | succ m ih =>
    intro lst hl c hc
    unfold divide at hc
    by_cases hn : n = 0
    · rw [if_pos hn] at hc; exact absurd hc (by simp)
    · rw [if_neg hn] at hc
      match lst, hl, hc with
      | [], _, hc => exact absurd hc (by simp)
      | a :: l, hl, hc =>
        rcases List.mem_cons.mp hc with h1 | h1
        · subst h1; simp
        · exact ih ((a :: l).drop n) (by simp at hl ⊢; omega) c h1

/-- Every chunk produced by `divide` has length at most `n`. -/
theorem divide_chunk_le (n : Nat) (lst : List α) :
    ∀ c ∈ divide lst n, c.length ≤ n :=
  divide_chunk_le_aux n lst.length lst le_rfl

/-- `divide` produces no chunk from an empty list. -/
theorem divide_nil (n : Nat) : divide ([] : List α) n = [] := by
  unfold divide
  by_cases hn : n = 0
  · rw [if_pos hn]
  · rw [if_neg hn]

/-- Every chunk of `divide` other than the last has length exactly `n`
(length-bounded version driving the induction). -/
theorem divide_dropLast_aux (n : Nat) : ∀ (len : Nat) (lst : List α),
    lst.length ≤ len → ∀ c ∈ (divide lst n).dropLast, c.length = n := by
  intro len
  induction len with
  | zero =>
    intro lst hl
    match lst, hl with
    | [], _ =>
      intro c hc
      rw [divide_nil] at hc
      exact absurd hc (by simp)
  | succ m ih =>
    intro lst hl c hc
    unfold divide at hc
    by_cases hn : n = 0
    · rw [if_pos hn] at hc; exact absurd hc (by simp)
    · rw [if_neg hn] at hc
      match lst, hl, hc with
      | [], _, hc => exact absurd hc (by simp)
      | a :: l, hl, hc =>
        replace hc : c ∈ (List.take n (a :: l)
            :: divide (List.drop n (a :: l)) n).dropLast := hc
        cases hrest : divide ((a :: l).drop n) n with
        | nil => rw [hrest] at hc; exact absurd hc (by simp)
        | cons r rs =>
          rw [hrest, List.dropLast_cons_of_ne_nil (by simp)] at hc
          rcases List.mem_cons.mp hc with h1 | h1
          · subst h1
            have hd : (a :: l).drop n ≠ [] := by
              intro hd
              rw [hd, divide_nil] at hrest
              exact absurd hrest (by simp)
            have hlt : n < (a :: l).length := by
              by_contra hcon
              exact hd (List.drop_eq_nil_of_le (by omega))
            rw [List.length_take]
            exact Nat.min_eq_left (Nat.le_of_lt hlt)
          · rw [← hrest] at h1
            exact ih ((a :: l).drop n) (by simp at hl ⊢; omega) c h1

/-- Every chunk of `divide` other than the last has length exactly `n`:
only the final chunk may be shorter. -/
theorem divide_dropLast_length (n : Nat) (lst : List α) :
    ∀ c ∈ (divide lst n).dropLast, c.length = n :=
  divide_dropLast_aux n lst.length lst le_rfl

/-- `!=` on strings is symmetric. -/
theorem string_bne_symm (a b : String) : (a != b) = (b != a) := by
  by_cases h : a = b
  · subst h; rfl
  · rw [Bool.eq_iff_iff]
    simp [bne_iff_ne]
    exact ⟨fun _ => Ne.symm h, fun _ => h⟩

/-- The ids left in the working list after the feed loop are exactly the
incoming ids matched by no feed record, in their original order (for a
duplicate-free incoming list). -/
theorem stocksLoop_rem_eq_filter : ∀ (F : List Watch) (K : List String),
    K.Nodup → ∀ m rem, seller.stocksLoop F K = some (m, rem) →
    rem = K.filter (fun k => F.all fun w => w.kod != k) := by
  intro F
  induction F with
  | nil =>
    intro K _ m rem h
    simp only [seller.stocksLoop, Option.some_inj, Prod.mk.injEq] at h
    obtain ⟨h1, h2⟩ := h
    subst h2
    simp
  | cons w ws ih =>
    intro K hK m rem h
    simp only [seller.stocksLoop] at h
    by_cases hmem : w.kod ∈ K
    · rw [if_pos hmem] at h
      cases hn : normalizeCount w.kolichestvo with
      | none => rw [hn] at h; exact absurd h (by simp)
      | some s =>
        rw [hn] at h
        cases hr : seller.stocksLoop ws (K.erase w.kod) with
        | none => rw [hr] at h; exact absurd h (by simp)
        | some p =>
          obtain ⟨rest, ids⟩ := p
          rw [hr] at h
          simp only [Option.some_inj, Prod.mk.injEq] at h
          obtain ⟨h1, h2⟩ := h
          subst h2
          have hrec := ih (K.erase w.kod) (hK.erase w.kod) rest _ hr
          rw [hrec, hK.erase_eq_filter w.kod, List.filter_filter]
          apply List.filter_congr
          intro k _
          rw [List.all_cons, string_bne_symm k w.kod, Bool.and_comm]
    · rw [if_neg hmem] at h
      have hrec := ih K hK m rem h
      rw [hrec]
      apply List.filter_congr
      intro k hk
      have hne : w.kod ≠ k := fun he => hmem (he ▸ hk)
      have htrue : (w.kod != k) = true := bne_iff_ne.mpr hne
      rw [List.all_cons, htrue, Bool.true_and]

/-- The ids of the entries emitted by the feed loop form a subsequence of
the feed's code sequence: matched entries appear in feed order. -/
theorem stocksLoop_matched_sublist : ∀ (F : List Watch) (K : List String)
    m rem, seller.stocksLoop F K = some (m, rem) →
    (m.map seller.Stock.offer_id).Sublist (F.map Watch.kod) := by
  intro F
  induction F with
  | nil =>
    intro K m rem h
    simp only [seller.stocksLoop, Option.some_inj, Prod.mk.injEq] at h
    obtain ⟨h1, h2⟩ := h
    subst h1
    simp
  | cons w ws ih =>
    intro K m rem h
    simp only [seller.stocksLoop] at h
    by_cases hmem : w.kod ∈ K
    · rw [if_pos hmem] at h
      cases hn : normalizeCount w.kolichestvo with
      | none => rw [hn] at h; exact absurd h (by simp)
      | some s =>
        rw [hn] at h
        cases hr : seller.stocksLoop ws (K.erase w.kod) with
        | none => rw [hr] at h; exact absurd h (by simp)
        | some p =>
          obtain ⟨rest, ids⟩ := p
          rw [hr] at h
          simp only [Option.some_inj, Prod.mk.injEq] at h
          obtain ⟨h1, h2⟩ := h
          subst h1
          simp only [List.map_cons]
          exact (ih _ _ _ hr).cons₂ w.kod
    · rw [if_neg hmem] at h
      simp only [List.map_cons]
      exact (ih _ _ _ h).cons w.kod

/-! ## Lemmas about stock values and quantity normalization -/

/-- Every entry emitted by the feed loop carries the normalized quantity
of the feed record it came from. -/
theorem stocksLoop_stock_values : ∀ (F : List Watch) (K : List String) m rem,
    seller.stocksLoop F K = some (m, rem) → ∀ e ∈ m, ∃ w ∈ F,
    w.kod = e.offer_id ∧ normalizeCount w.kolichestvo = some e.stock := by
  intro F
  induction F with
  | nil =>
    intro K m rem h
    simp only [seller.stocksLoop, Option.some_inj, Prod.mk.injEq] at h
    obtain ⟨h1, h2⟩ := h
    subst h1
    intro e he
    exact absurd he (by simp)
  | cons w ws ih =>
    intro K m rem h
    simp only [seller.stocksLoop] at h
    by_cases hmem : w.kod ∈ K
    · rw [if_pos hmem] at h
      cases hn : normalizeCount w.kolichestvo with
      | none => rw [hn] at h; exact absurd h (by simp)
      | some s =>
        rw [hn] at h
        cases hr : seller.stocksLoop ws (K.erase w.kod) with
        | none => rw [hr] at h; exact absurd h (by simp)
        | some p =>
          obtain ⟨rest, ids⟩ := p
          rw [hr] at h
          simp only [Option.some_inj, Prod.mk.injEq] at h
          obtain ⟨h1, h2⟩ := h
          subst h1
          intro e he
          rcases List.mem_cons.mp he with h1 | h1
          · subst h1
            exact ⟨w, List.mem_cons_self w ws, rfl, hn⟩
          · rcases ih _ _ _ hr e h1 with ⟨w', hw', hkod, hcount⟩
            exact ⟨w', List.mem_cons_of_mem w hw', hkod, hcount⟩
    · rw [if_neg hmem] at h
      intro e he
      rcases ih _ _ _ h e he with ⟨w', hw', hkod, hcount⟩
      exact ⟨w', List.mem_cons_of_mem w hw', hkod, hcount⟩

/-- C2: the quantity normalization inside `create_stocks` maps `">10"` to
100, `"1"` to 0 and any other numeric string (e.g. `"7"`) to the integer
it denotes, and every stock entry emitted for a matched feed record
carries exactly that integer (entries with any other value are the
zero defaults for leftover ids). -/
theorem quantity_normalization_correct :
    normalizeCount ">10" = some 100 ∧ normalizeCount "1" = some 0 ∧
    normalizeCount "7" = some 7 ∧
    (∀ s v, s ≠ ">10" → s ≠ "1" → pythonInt s = some v →
      normalizeCount s = some v) ∧
    (∀ F K st rem, seller.create_stocks F K = some (st, rem) →
      ∀ e ∈ st, (∃ w ∈ F, w.kod = e.offer_id ∧
        normalizeCount w.kolichestvo = some e.stock) ∨
        (e.offer_id ∈ rem ∧ e.stock = 0)) := by
  refine ⟨by decide, by decide, by decide, ?_, ?_⟩
  · intro s v h10 h1 hint
    unfold normalizeCount
    rw [if_neg h10, if_neg h1]
    exact hint
  · intro F K st rem h
    unfold seller.create_stocks at h
    cases hr : seller.stocksLoop F K with
    | none => rw [hr] at h; exact absurd h (by simp)
    | some p =>
      obtain ⟨matched, rem'⟩ := p
      rw [hr] at h
      simp only [Option.some_inj, Prod.mk.injEq] at h
      obtain ⟨h1, h2⟩ := h
      subst h1; subst h2
      intro e he
      rcases List.mem_append.mp he with hm | hm
      · exact Or.inl (stocksLoop_stock_values F K _ _ hr e hm)
      · rcases List.mem_map.mp hm with ⟨id, hid, hide⟩
        right
        rw [← hide]
        exact ⟨hid, rfl⟩

/-- Witness for C2: the general numeric clause at `"13"` and the
emitted-count clause at a one-row feed. -/
theorem quantity_normalization_correct_witness :
    normalizeCount "13" = some 13 ∧
    ((∃ w ∈ [(⟨"A", "5", "p"⟩ : Watch)],
        w.kod = (⟨"A", 5⟩ : seller.Stock).offer_id ∧
        normalizeCount w.kolichestvo = some (⟨"A", 5⟩ : seller.Stock).stock) ∨
      ((⟨"A", 5⟩ : seller.Stock).offer_id ∈ ([] : List String) ∧
        (⟨"A", 5⟩ : seller.Stock).stock = 0)) := by
  constructor
  · exact quantity_normalization_correct.2.2.2.1 "13" 13 (by decide)
      (by decide) (by decide)
  · exact quantity_normalization_correct.2.2.2.2 [⟨"A", "5", "p"⟩] ["A"]
      [⟨"A", 5⟩] [] rfl ⟨"A", 5⟩ (by simp)

/-! ## Lemmas about `price_conversion` -/

/-- `beforeDot` on a list without a period is the whole list. -/
theorem beforeDot_no_dot : ∀ l : List Char, '.' ∉ l → beforeDot l = l := by
  intro l
  induction l with
  | nil => intro _; rfl
  | cons c cs ih =>
    intro h
    unfold beforeDot
    rw [if_neg (fun hc => h (List.mem_cons.mpr (Or.inl hc.symm)))]
    rw [ih (fun hc => h (List.mem_cons_of_mem c hc))]

/-- `beforeDot` cuts at the first period. -/
theorem beforeDot_append : ∀ l₁ l₂ : List Char, '.' ∉ l₁ →
    beforeDot (l₁ ++ '.' :: l₂) = l₁ := by
  intro l₁ l₂
  induction l₁ with
  | nil => intro _; simp [beforeDot]
  | cons c cs ih =>
    intro h
    simp only [List.cons_append]
    unfold beforeDot
    rw [if_neg (fun hc => h (List.mem_cons.mpr (Or.inl hc.symm)))]
    rw [ih (fun hc => h (List.mem_cons_of_mem c hc))]

/-- C9: `price_conversion "5'990.00 руб." = "5990"`, and in general on a
string with a period the function keeps only the part before the first
period and removes every non-digit character from it. -/
theorem price_conversion_correct :
    price_conversion "5'990.00 руб." = "5990" ∧
    ∀ a b : String, '.' ∉ a.toList →
      price_conversion (a ++ "." ++ b) =
      String.mk (a.toList.filter Char.isDigit) := by
  constructor
  · rfl
  · intro a b h
    unfold price_conversion
    have hdata : (a ++ "." ++ b).toList = a.toList ++ '.' :: b.toList := by
      simp [String.toList, String.data_append]
    rw [hdata, beforeDot_append a.toList b.toList h]

/-- Witness for C9's general clause at `a = "12z3"`, `b = "45"`. -/
theorem price_conversion_correct_witness :
    price_conversion ("12z3" ++ "." ++ "45") =
    String.mk ("12z3".toList.filter Char.isDigit) :=
  price_conversion_correct.2 "12z3" "45" (by decide)

/-- Counterexample for C3: `price_conversion` does not fail on an input
without a period; on `"5'990 руб"` it simply returns `"5990"` (Python's
`split` returns the whole string as the single part and indexing `[0]`
succeeds). -/
theorem price_conversion_no_period_returns :
    price_conversion "5'990 руб" = "5990" ∧
    ('.' ∈ "5'990 руб".toList ↔ False) := by
  constructor
  · rfl
  · simp only [iff_false]
    decide

/-- C3 amended: on every input without a period, `price_conversion`
succeeds and returns the digit characters of the whole string. -/
theorem price_conversion_no_period_total (s : String)
    (h : '.' ∉ s.toList) :
    price_conversion s = String.mk (s.toList.filter Char.isDigit) := by
  unfold price_conversion
  rw [beforeDot_no_dot s.toList h]

/-- Witness for the amended C3 at `"5'990 руб"`. -/
theorem price_conversion_no_period_total_witness :
    price_conversion "5'990 руб" =
    String.mk ("5'990 руб".toList.filter Char.isDigit) :=
  price_conversion_no_period_total "5'990 руб" (by decide)

/-- C4: for every list and every `n > 0`, the chunks of `divide lst n`
concatenate back to `lst` in order, every chunk has length at most `n`,
and every chunk except possibly the last has length exactly `n`. -/
theorem divide_concat_and_bounds (lst : List α) (n : Nat) (h : 0 < n) :
    (divide lst n).flatten = lst ∧
    (∀ c ∈ divide lst n, c.length ≤ n) ∧
    (∀ c ∈ (divide lst n).dropLast, c.length = n) :=
  ⟨divide_flatten n (Nat.pos_iff_ne_zero.mp h) lst,
   fun c hc => divide_chunk_le n lst c hc,
   fun c hc => divide_dropLast_length n lst c hc⟩

/-- Witness for C4: the batcher at a concrete five-element list with
`n = 2`. -/
theorem divide_concat_and_bounds_witness :
    (divide ([1, 2, 3, 4, 5] : List Nat) 2).flatten = [1, 2, 3, 4, 5] ∧
    (∀ c ∈ divide ([1, 2, 3, 4, 5] : List Nat) 2, c.length ≤ 2) ∧
    (∀ c ∈ (divide ([1, 2, 3, 4, 5] : List Nat) 2).dropLast,
      c.length = 2) :=
  divide_concat_and_bounds [1, 2, 3, 4, 5] 2 (by decide)

/-! ## Claim theorems: zero defaulting and ordering of `create_stocks` -/

/-- C5: for a duplicate-free known-id list, every known id matched by no
feed record gets a zero-quantity entry, and the output is the feed-matched
entries first, in feed order, followed by the zero defaults for the
leftover ids in their original order — in both marketplace variants. -/
theorem create_stocks_defaults_and_order (F : List Watch) (K : List String)
    (hK : K.Nodup) :
    (∀ st rem, seller.create_stocks F K = some (st, rem) →
      rem = K.filter (fun k => F.all fun w => w.kod != k) ∧
      (∀ k ∈ K, (∀ w ∈ F, w.kod ≠ k) → (⟨k, 0⟩ : seller.Stock) ∈ st) ∧
      ∃ matched, st = matched ++ rem.map
          (fun id => (⟨id, 0⟩ : seller.Stock)) ∧
        (matched.map seller.Stock.offer_id).Sublist (F.map Watch.kod)) ∧
    (∀ w d st rem, market.create_stocks F K w d = some (st, rem) →
      rem = K.filter (fun k => F.all fun x => x.kod != k) ∧
      (∀ k ∈ K, (∀ x ∈ F, x.kod ≠ k) →
        (⟨k, w, 0, "FIT", d⟩ : market.Stock) ∈ st) ∧
      ∃ matched, st = matched ++ rem.map
          (fun id => (⟨id, w, 0, "FIT", d⟩ : market.Stock)) ∧
        (matched.map market.Stock.sku).Sublist (F.map Watch.kod)) := by
  have seller_part : ∀ st rem, seller.create_stocks F K = some (st, rem) →
      rem = K.filter (fun k => F.all fun w => w.kod != k) ∧
      (∀ k ∈ K, (∀ w ∈ F, w.kod ≠ k) → (⟨k, 0⟩ : seller.Stock) ∈ st) ∧
      ∃ matched, st = matched ++ rem.map
          (fun id => (⟨id, 0⟩ : seller.Stock)) ∧
        (matched.map seller.Stock.offer_id).Sublist (F.map Watch.kod) := by
    intro st rem h
    unfold seller.create_stocks at h
    cases hr : seller.stocksLoop F K with
    | none => rw [hr] at h; exact absurd h (by simp)
    | some p =>
      obtain ⟨matched, rem'⟩ := p
      rw [hr] at h
      simp only [Option.some_inj, Prod.mk.injEq] at h
      obtain ⟨h1, h2⟩ := h
      subst h1; subst h2
      refine ⟨stocksLoop_rem_eq_filter F K hK _ _ hr, ?_, matched, rfl,
        stocksLoop_matched_sublist F K _ _ hr⟩
      intro k hk hnone
      apply List.mem_append_right
      apply List.mem_map_of_mem
      rw [stocksLoop_rem_eq_filter F K hK _ _ hr]
      rw [List.mem_filter]
      refine ⟨hk, ?_⟩
      rw [List.all_eq_true]
      intro w hw
      exact bne_iff_ne.mpr (hnone w hw)
  constructor
  · exact seller_part
  · intro w d st rem h
    rw [market_create_stocks_eq] at h
    rcases Option.map_eq_some'.mp h with ⟨⟨st', rem'⟩, hs, hconv⟩
    simp only [Prod.mk.injEq] at hconv
    obtain ⟨h1, h2⟩ := hconv
    subst h1; subst h2
    rcases seller_part st' rem' hs with ⟨hfilter, hzero, matched, hst, hsub⟩
    refine ⟨hfilter, ?_, matched.map (toMarketStock w d), ?_, ?_⟩
    · intro k hk hnone
      exact hst ▸ List.mem_map_of_mem (toMarketStock w d)
        (hzero k hk hnone)
    · rw [hst, List.map_append, List.map_map]
      rfl
    · rw [toMarketStock_sku_map]
      exact hsub

/-- Witness for C5 at a one-row feed and two known ids. -/
theorem create_stocks_defaults_and_order_witness :
    (["B"] : List String) = (["A", "B"] : List String).filter
      (fun k => [(⟨"A", "5", "p"⟩ : Watch)].all fun w => w.kod != k) ∧
    (⟨"B", 0⟩ : seller.Stock) ∈
      ([⟨"A", 5⟩, ⟨"B", 0⟩] : List seller.Stock) := by
  have h := (create_stocks_defaults_and_order [⟨"A", "5", "p"⟩] ["A", "B"]
    (by decide)).1 [⟨"A", 5⟩, ⟨"B", 0⟩] ["B"] rfl
  exact ⟨h.1, h.2.1 "B" (by decide) (by decide)⟩

/-! ## Claim theorems: `create_prices` exclusivity -/

/-- C6: `create_prices` emits an entry exactly for the feed rows whose
code is among the known ids (in feed order), every emitted id is in both
the feed and the known ids, an id absent from the feed never appears (no
zero-price defaulting), and the known-id list is left unchanged (the
source performs no mutating call on it, so the embedding needs no state
passing).  The market variant satisfies the same membership property
whenever it succeeds. -/
theorem create_prices_exclusive (F : List Watch) (K : List String) :
    (seller.create_prices F K = (F.filter fun w => decide (w.kod ∈ K)).map
      (fun w => ⟨"UNKNOWN", "RUB", w.kod, "0", price_conversion w.tsena⟩)) ∧
    (∀ p ∈ seller.create_prices F K, p.offer_id ∈ K ∧
      ∃ w ∈ F, w.kod = p.offer_id) ∧
    (∀ k ∈ K, (∀ w ∈ F, w.kod ≠ k) →
      ∀ p ∈ seller.create_prices F K, p.offer_id ≠ k) ∧
    (∀ ps, market.create_prices F K = some ps →
      ∀ p ∈ ps, p.id ∈ K ∧ ∃ w ∈ F, w.kod = p.id) := by
  have mem_part : ∀ p ∈ seller.create_prices F K, p.offer_id ∈ K ∧
      ∃ w ∈ F, w.kod = p.offer_id := by
    intro p hp
    rw [create_prices_eq_filter_map F K] at hp
    rcases List.mem_map.mp hp with ⟨w, hw, hwp⟩
    rcases List.mem_filter.mp hw with ⟨hwF, hwK⟩
    subst hwp
    exact ⟨of_decide_eq_true hwK, w, hwF, rfl⟩
  refine ⟨create_prices_eq_filter_map F K, mem_part, ?_,
    market_create_prices_mem F K⟩
  intro k _ hnone p hp hpk
  rcases mem_part p hp with ⟨_, w, hwF, hwkod⟩
  exact hnone w hwF (hpk ▸ hwkod)

/-- Witness for C6 at a feed with one known and one unknown code. -/
theorem create_prices_exclusive_witness :
    ((⟨"UNKNOWN", "RUB", "A", "0", "1"⟩ : seller.Price).offer_id ∈
      (["A", "B"] : List String) ∧
      ∃ w ∈ [(⟨"A", "5", "1.0"⟩ : Watch), ⟨"C", "2", "2.0"⟩],
        w.kod = (⟨"UNKNOWN", "RUB", "A", "0", "1"⟩ :
          seller.Price).offer_id) ∧
    (∀ p ∈ seller.create_prices [(⟨"A", "5", "1.0"⟩ : Watch),
        ⟨"C", "2", "2.0"⟩] ["A", "B"], p.offer_id ≠ "B") := by
  constructor
  · exact (create_prices_exclusive [⟨"A", "5", "1.0"⟩, ⟨"C", "2", "2.0"⟩]
      ["A", "B"]).2.1 ⟨"UNKNOWN", "RUB", "A", "0", "1"⟩ (by decide)
  · exact (create_prices_exclusive [⟨"A", "5", "1.0"⟩, ⟨"C", "2", "2.0"⟩]
      ["A", "B"]).2.2.1 "B" (by decide) (by decide)

/-! ## Claim theorems: error propagation -/

/-- If a feed record whose code is still unmatched has an unparsable
quantity, the feed loop aborts with the exception, whatever comes after
it in the feed. -/
theorem stocksLoop_bad_quantity_none : ∀ (F₁ : List Watch) (w : Watch)
    (F₂ : List Watch) (K : List String), w.kod ∈ K →
    (∀ w' ∈ F₁, w'.kod ≠ w.kod) → normalizeCount w.kolichestvo = none →
    seller.stocksLoop (F₁ ++ w :: F₂) K = none := by
  intro F₁
  induction F₁ with
  | nil =>
    intro w F₂ K hmem _ hbad
    simp only [List.nil_append, seller.stocksLoop]
    rw [if_pos hmem, hbad]
  | cons w' ws ih =>
    intro w F₂ K hmem hfirst hbad
    simp only [List.cons_append, seller.stocksLoop]
    by_cases hmem' : w'.kod ∈ K
    · rw [if_pos hmem']
      cases hn : normalizeCount w'.kolichestvo with
      | none => rfl
      | some s =>
        have hne : w.kod ≠ w'.kod :=
          fun he => hfirst w' (List.mem_cons_self w' ws) he.symm
        have hstill : w.kod ∈ K.erase w'.kod :=
          (List.mem_erase_of_ne hne).mpr hmem
        have hrec := ih w F₂ (K.erase w'.kod) hstill
          (fun x hx => hfirst x (List.mem_cons_of_mem w' hx)) hbad
        simp [hrec]
    · rw [if_neg hmem']
      exact ih w F₂ K hmem
        (fun x hx => hfirst x (List.mem_cons_of_mem w' hx)) hbad

/-- C8: an unparsable quantity string on a feed row whose code is known
(and not already consumed by an earlier row with the same code) makes the
exception propagate out of `create_stocks` and abort the whole run in
`main`: no rows are emitted at all, no bad row is skipped. -/
theorem malformed_quantity_aborts (F₁ F₂ : List Watch) (w : Watch)
    (K : List String) (hmem : w.kod ∈ K)
    (hfirst : ∀ w' ∈ F₁, w'.kod ≠ w.kod)
    (hbad : normalizeCount w.kolichestvo = none) :
    seller.create_stocks (F₁ ++ w :: F₂) K = none ∧
    seller.mainSync (F₁ ++ w :: F₂) K = none := by
  have hloop := stocksLoop_bad_quantity_none F₁ w F₂ K hmem hfirst hbad
  have hcs : seller.create_stocks (F₁ ++ w :: F₂) K = none := by
    unfold seller.create_stocks
    rw [hloop]
  refine ⟨hcs, ?_⟩
  unfold seller.mainSync
  rw [hcs]

/-- Witness for C8 at a feed whose second row has quantity `"abc"`. -/
theorem malformed_quantity_aborts_witness :
    seller.create_stocks ([⟨"B", "2", "p"⟩] ++ ⟨"A", "abc", "p"⟩ ::
      [⟨"C", "3", "p"⟩]) ["A", "B"] = none ∧
    seller.mainSync ([⟨"B", "2", "p"⟩] ++ ⟨"A", "abc", "p"⟩ ::
      [⟨"C", "3", "p"⟩]) ["A", "B"] = none :=
  malformed_quantity_aborts [⟨"B", "2", "p"⟩] [⟨"C", "3", "p"⟩]
    ⟨"A", "abc", "p"⟩ ["A", "B"] (by decide) (by decide) (by decide)

/-! ## Claim theorems: the mutation of `offer_ids` and its effect -/

/-- C10: `create_stocks` mutates `offer_ids` in place, leaving exactly the
ids matched by no feed record; in `seller.main` the subsequent
`create_prices` call therefore sees only the unmatched ids and (for a feed
without duplicate codes) builds an empty price list. -/
theorem create_stocks_mutation_empties_prices (F : List Watch)
    (K : List String) (hK : K.Nodup) (_hF : (F.map Watch.kod).Nodup) :
    ∀ st K', seller.create_stocks F K = some (st, K') →
      (∀ k, k ∈ K' ↔ (k ∈ K ∧ ∀ w ∈ F, w.kod ≠ k)) ∧
      seller.create_prices F K' = [] ∧
      seller.mainSync F K = some (st, []) := by
  intro st K' h
  have hfilter : K' = K.filter (fun k => F.all fun w => w.kod != k) := by
    unfold seller.create_stocks at h
    cases hr : seller.stocksLoop F K with
    | none => rw [hr] at h; exact absurd h (by simp)
    | some p =>
      obtain ⟨matched, rem'⟩ := p
      rw [hr] at h
      simp only [Option.some_inj, Prod.mk.injEq] at h
      rw [← h.2]
      exact stocksLoop_rem_eq_filter F K hK _ _ hr
  have hmem : ∀ k, k ∈ K' ↔ (k ∈ K ∧ ∀ w ∈ F, w.kod ≠ k) := by
    intro k
    rw [hfilter, List.mem_filter]
    constructor
    · rintro ⟨hk, hall⟩
      refine ⟨hk, ?_⟩
      rw [List.all_eq_true] at hall
      intro w hw
      exact bne_iff_ne.mp (hall w hw)
    · rintro ⟨hk, hall⟩
      refine ⟨hk, ?_⟩
      rw [List.all_eq_true]
      intro w hw
      exact bne_iff_ne.mpr (hall w hw)
  have hdisj : ∀ w ∈ F, w.kod ∉ K' := by
    intro w hw hcon
    exact ((hmem w.kod).mp hcon).2 w hw rfl
  have hprices : seller.create_prices F K' = [] :=
    create_prices_nil_of_disjoint F K' hdisj
  refine ⟨hmem, hprices, ?_⟩
  unfold seller.mainSync
  rw [h]
  simp [hprices]

/-- Witness for C10 at a one-row feed matching the first of two known
ids. -/
theorem create_stocks_mutation_empties_prices_witness :
    ("B" ∈ (["B"] : List String) ↔ ("B" ∈ (["A", "B"] : List String) ∧
      ∀ w ∈ [(⟨"A", "5", "p"⟩ : Watch)], w.kod ≠ "B")) ∧
    seller.create_prices [(⟨"A", "5", "p"⟩ : Watch)] ["B"] = [] ∧
    seller.mainSync [(⟨"A", "5", "p"⟩ : Watch)] ["A", "B"] =
      some ([⟨"A", 5⟩, ⟨"B", 0⟩], []) := by
  have h := create_stocks_mutation_empties_prices [⟨"A", "5", "p"⟩]
    ["A", "B"] (by decide) (by decide) [⟨"A", 5⟩, ⟨"B", 0⟩] ["B"] rfl
  exact ⟨h.1 "B", h.2.1, h.2.2⟩

/-! ## Pagination: cursor orbits and termination -/

/-- The sequence of cursors the seller pagination loop passes to the
listing endpoint, starting from `t`. -/
def sCursor (σ : String → seller.SPage) (t : String) : Nat → String
  | 0 => t
  | i + 1 => (σ (sCursor σ t i)).last_id

/-- Number of items accumulated by the seller loop after `i` pages. -/
def sCum (σ : String → seller.SPage) (t : String) : Nat → Nat
  | 0 => 0
  | i + 1 => sCum σ t i + (σ (sCursor σ t i)).items.length

/-- The sequence of page tokens the market pagination loop passes to the
listing endpoint, starting from `t`. -/
def mToken (σ : String → market.MPage) (t : String) : Nat → String
  | 0 => t
  | i + 1 => (σ (mToken σ t i)).nextPageToken

/-- Advancing the start cursor by one page shifts the cursor orbit. -/
theorem sCursor_shift (σ : String → seller.SPage) (t : String) :
    ∀ i, sCursor σ ((σ t).last_id) i = sCursor σ t (i + 1) := by
  intro i
  induction i with
  | zero => rfl
  | succ j ih => unfold sCursor; rw [ih]

/-- Advancing the start cursor by one page shifts the accumulated item
count by the first page's length. -/
theorem sCum_shift (σ : String → seller.SPage) (t : String) :
    ∀ i, (σ t).items.length + sCum σ ((σ t).last_id) i =
      sCum σ t (i + 1) := by
  intro i
  induction i with
  | zero => simp [sCum, sCursor]
  | succ j ih =>
    unfold sCum
    rw [sCursor_shift σ t j, ← ih]
    omega

/-- Advancing the start token by one page shifts the token orbit. -/
theorem mToken_shift (σ : String → market.MPage) (t : String) :
    ∀ i, mToken σ ((σ t).nextPageToken) i = mToken σ t (i + 1) := by
  intro i
  induction i with
  | zero => rfl
  | succ j ih => unfold mToken; rw [ih]

/-- Peeling the first page off an indexed concatenation. -/
theorem range_map_flatten_succ (f : Nat → List α) (n : Nat) :
    ((List.range (n + 1)).map f).flatten =
    f 0 ++ ((List.range n).map (fun i => f (i + 1))).flatten := by
  rw [List.range_succ_eq_map, List.map_cons, List.flatten_cons,
    List.map_map]
  rfl

/-- If the reported total first matches the accumulated count after page
`n`, the seller pagination loop (given fuel for those pages) returns all
page items concatenated in page order. -/
theorem sellerLoop_terminates (σ : String → seller.SPage) : ∀ (n : Nat)
    (t : String) (acc : List seller.SProduct) (fuel : Nat),
    n + 1 ≤ fuel →
    (∀ i < n, (σ (sCursor σ t i)).total ≠ acc.length + sCum σ t (i + 1)) →
    (σ (sCursor σ t n)).total = acc.length + sCum σ t (n + 1) →
    seller.offerLoop σ fuel t acc = some (acc ++
      ((List.range (n + 1)).map (fun i => (σ (sCursor σ t i)).items)).flatten)
    := by
  intro n
  induction n with
  | zero =>
    intro t acc fuel hfuel _ hend
    match fuel, hfuel with
    | f + 1, _ =>
      simp only [seller.offerLoop]
      have hcond : (σ t).total = (acc ++ (σ t).items).length := by
        have h1 : sCursor σ t 0 = t := rfl
        have h2 : sCum σ t 1 = (σ t).items.length := by simp [sCum, sCursor]
        rw [List.length_append]
        rw [h1] at hend
        rw [h2] at hend
        exact hend
      rw [if_pos hcond]
      have : ((List.range 1).map
          (fun i => (σ (sCursor σ t i)).items)).flatten = (σ t).items := by
        simp [List.range_succ, sCursor]
      rw [this]
  | succ m ih =>
    intro t acc fuel hfuel hmid hend
    match fuel, hfuel with
    | f + 1, hf =>
      simp only [seller.offerLoop]
      have hne : ¬ (σ t).total = (acc ++ (σ t).items).length := by
        have h0 := hmid 0 (Nat.succ_pos m)
        have h1 : sCursor σ t 0 = t := rfl
        have h2 : sCum σ t 1 = (σ t).items.length := by simp [sCum, sCursor]
        rw [h1, h2] at h0
        rw [List.length_append]
        exact h0
      rw [if_neg hne]
      have hmid' : ∀ i < m, (σ (sCursor σ ((σ t).last_id) i)).total ≠
          (acc ++ (σ t).items).length + sCum σ ((σ t).last_id) (i + 1) := by
        intro i hi
        rw [sCursor_shift σ t i, List.length_append]
        have := hmid (i + 1) (by omega)
        have hc := sCum_shift σ t (i + 1)
        omega
      have hend' : (σ (sCursor σ ((σ t).last_id) m)).total =
          (acc ++ (σ t).items).length + sCum σ ((σ t).last_id) (m + 1) := by
        rw [sCursor_shift σ t m, List.length_append]
        have hc := sCum_shift σ t (m + 1)
        omega
      rw [ih ((σ t).last_id) (acc ++ (σ t).items) f (by omega) hmid' hend']
      have hmap : (List.range (m + 1)).map
          (fun i => (σ (sCursor σ ((σ t).last_id) i)).items) =
          (List.range (m + 1)).map
          (fun i => (σ (sCursor σ t (i + 1))).items) := by
        apply List.map_congr_left
        intro i _
        rw [sCursor_shift σ t i]
      rw [hmap]
      rw [range_map_flatten_succ (fun i => (σ (sCursor σ t i)).items) (m + 1)]
      have h1 : sCursor σ t 0 = t := rfl
      rw [h1, List.append_assoc]

/-- If the token orbit first becomes falsy after page `n`, the market
pagination loop (given fuel for those pages) returns all page entries
concatenated in page order. -/
theorem marketLoop_terminates (σ : String → market.MPage) : ∀ (n : Nat)
    (t : String) (acc : List market.MEntry) (fuel : Nat),
    n + 1 ≤ fuel →
    (∀ i, 1 ≤ i → i ≤ n → mToken σ t i ≠ "") →
    mToken σ t (n + 1) = "" →
    market.offerLoop σ fuel t acc = some (acc ++
      ((List.range (n + 1)).map
        (fun i => (σ (mToken σ t i)).offerMappingEntries)).flatten) := by
  intro n
  induction n with
  | zero =>
    intro t acc fuel hfuel _ hend
    match fuel, hfuel with
    | f + 1, _ =>
      simp only [market.offerLoop]
      have hcond : (σ t).nextPageToken = "" := hend
      rw [if_pos hcond]
      have : ((List.range 1).map
          (fun i => (σ (mToken σ t i)).offerMappingEntries)).flatten =
          (σ t).offerMappingEntries := by
        simp [List.range_succ, mToken]
      rw [this]
  | succ m ih =>
    intro t acc fuel hfuel hmid hend
    match fuel, hfuel with
    | f + 1, hf =>
      simp only [market.offerLoop]
      have hne : ¬ (σ t).nextPageToken = "" :=
        hmid 1 le_rfl (by omega)
      rw [if_neg hne]
      have hmid' : ∀ i, 1 ≤ i → i ≤ m →
          mToken σ ((σ t).nextPageToken) i ≠ "" := by
        intro i h1 h2
        rw [mToken_shift σ t i]
        exact hmid (i + 1) (by omega) (by omega)
      have hend' : mToken σ ((σ t).nextPageToken) (m + 1) = "" := by
        rw [mToken_shift σ t (m + 1)]
        exact hend
      rw [ih ((σ t).nextPageToken) (acc ++ (σ t).offerMappingEntries) f
        (by omega) hmid' hend']
      have hmap : (List.range (m + 1)).map
          (fun i => (σ (mToken σ ((σ t).nextPageToken) i)).offerMappingEntries)
          = (List.range (m + 1)).map
          (fun i => (σ (mToken σ t (i + 1))).offerMappingEntries) := by
        apply List.map_congr_left
        intro i _
        rw [mToken_shift σ t i]
      rw [hmap]
      rw [range_map_flatten_succ
        (fun i => (σ (mToken σ t i)).offerMappingEntries) (m + 1)]
      have h1 : mToken σ t 0 = t := rfl
      rw [h1, List.append_assoc]

/-- A remote that consistently answers with a non-empty continuation
token and no items: the protocol violation named by the spec. -/
def mStuckServer : String → market.MPage := fun _ => ⟨[], "x"⟩

/-- Counterexample for C7's claim that `get_offer_ids` fails fatally on a
consistently non-empty cursor with no new items: one loop iteration from
the state (token `"x"`, nothing accumulated) returns the very same state
(so the `while True` loop revisits it forever), and after fifty
iterations the loop is still running with no error signalled — the code
has no fatal-error path at all for this situation. -/
theorem market_pagination_stuck_cursor_loops :
    market.offerStep mStuckServer ("x", []) = Sum.inl ("x", []) ∧
    market.offerLoop mStuckServer 50 "x" [] = none := by
  constructor
  · rfl
  · rfl

/-- A two-page Ozon-style server: the empty cursor yields two items and
cursor `"c1"`; any other cursor yields the third item, with total 3. -/
def sDemoServer : String → seller.SPage := fun c =>
  if c = "" then ⟨[⟨"p1"⟩, ⟨"p2"⟩], 3, "c1"⟩ else ⟨[⟨"p3"⟩], 3, "c2"⟩

/-- A two-page Yandex-style server: the empty token yields one entry and
token `"t1"`; any other token yields the second entry and the empty
token. -/
def mDemoServer : String → market.MPage := fun c =>
  if c = "" then ⟨[⟨"s1"⟩], "t1"⟩ else ⟨[⟨"s2"⟩], ""⟩

/-- C7 (amended): whenever the listing endpoint eventually reports
exhaustion — the accumulated count reaching the reported total for the
seller variant, a falsy next token for the market variant —
`get_offer_ids` terminates and returns the ids of all page items
concatenated in page order, each item exactly once; but when the remote
consistently returns a non-empty cursor with no new items, the loop
repeats the same state forever and never fails. -/
theorem get_offer_ids_pagination :
    (∀ (σ : String → seller.SPage) (n fuel : Nat), n + 1 ≤ fuel →
      (∀ i < n, (σ (sCursor σ "" i)).total ≠ sCum σ "" (i + 1)) →
      (σ (sCursor σ "" n)).total = sCum σ "" (n + 1) →
      seller.get_offer_ids σ fuel = some
        ((((List.range (n + 1)).map
          (fun i => (σ (sCursor σ "" i)).items)).flatten).map
            seller.SProduct.offer_id)) ∧
    (∀ (σ : String → market.MPage) (n fuel : Nat), n + 1 ≤ fuel →
      (∀ i, 1 ≤ i → i ≤ n → mToken σ "" i ≠ "") →
      mToken σ "" (n + 1) = "" →
      market.get_offer_ids σ fuel = some
        ((((List.range (n + 1)).map
          (fun i => (σ (mToken σ "" i)).offerMappingEntries)).flatten).map
            market.MEntry.shopSku)) ∧
    (∀ fuel, market.offerLoop mStuckServer fuel "x" [] = none) := by
  refine ⟨?_, ?_, ?_⟩
  · intro σ n fuel hfuel hmid hend
    unfold seller.get_offer_ids
    rw [sellerLoop_terminates σ n "" [] fuel hfuel
      (by simpa using hmid) (by simpa using hend)]
    rfl
  · intro σ n fuel hfuel hmid hend
    unfold market.get_offer_ids
    rw [marketLoop_terminates σ n "" [] fuel hfuel hmid hend]
    rfl
  · intro fuel
    induction fuel with
    | zero => rfl
    | succ f ih =>
      simp only [market.offerLoop]
      rw [if_neg (by decide : ¬ (mStuckServer "x").nextPageToken = "")]
      exact ih

/-- Witness for the amended C7: both demo servers exhaust after two
pages and yield the concatenation of their page items. -/
theorem get_offer_ids_pagination_witness :
    seller.get_offer_ids sDemoServer 3 =
      some ((((List.range 2).map
        (fun i => (sDemoServer (sCursor sDemoServer "" i)).items)).flatten).map
          seller.SProduct.offer_id) ∧
    market.get_offer_ids mDemoServer 2 =
      some ((((List.range 2).map
        (fun i => (mDemoServer
          (mToken mDemoServer "" i)).offerMappingEntries)).flatten).map
            market.MEntry.shopSku) := by
  constructor
  · exact get_offer_ids_pagination.1 sDemoServer 1 3 (by omega)
      (by decide) (by decide)
  · exact get_offer_ids_pagination.2.1 mDemoServer 1 2 (by omega)
      (by decide) (by decide)
